import Mathlib

/-!
Shallow embedding of the `cargo-set` core library
(`crates/cargo-set-lib/src/cargo.rs` and
`crates/cargo-set-lib/src/filesystem.rs`) and proofs about the manifest
graph loader and the version-propagation engine.

Modelling conventions:

* A `PathBuf` is modelled by `FilePath`: a flag recording whether the path
  is absolute plus its list of normal components.  `Path::parent` returns
  `none` exactly when the component list is empty (Rust: `Path::new("")`
  and `Path::new("/")` have no parent).  `PathBuf::push` of a relative
  path appends its components.  Declared workspace member paths are kept
  pre-split into components (`List String`), since the embedding does not
  model string-level path parsing.
* `cargo_toml::Manifest` is modelled by `Manifest` with the three fields
  the library touches: the optional `[package]` table (name, version),
  the optional `[workspace]` table (member list and workspace
  dependencies) and the `[dependencies]` table.  A `BTreeMap` keyed by
  strings is modelled as an association list (iteration order = list
  order); the `BTreeMap<PathBuf, Manifest>` of members is an association
  list kept sorted by the path order `FilePath.lt`, mirroring `BTreeMap`
  key order.
* `cargo_toml::Dependency` has the three source variants; `Detailed`
  keeps its optional `version` field plus the remaining detail fields,
  represented by the `path` field the repository exercises.
* File contents are abstracted at the parse boundary: a stored file is
  either `Content.valid m` (bytes that `Manifest::from_slice` parses to
  `m`, and which `toml::to_string_pretty` round-trips) or
  `Content.invalid` (bytes that fail to parse).  Serialization of a valid
  in-memory manifest is total (`toml::to_string_pretty` cannot fail on
  these string-keyed structures) and is modelled as producing the content
  that parses back to the same manifest.
* The `MockFileSystem` is a map from paths to contents; `read` and
  `write` fail with `io::ErrorKind::NotFound` ("File not found") when the
  path is absent — `write` never creates an entry.
* `anyhow` errors are modelled by the data the code actually attaches:
  the fixed `context` strings of `cargo.rs` and the inner io message.
  No resource identifier is part of any error the library builds.
* The `unwrap` of `root_path.parent()` in `load_children` is modelled by
  an explicit `panicked` outcome of loading.
-/

namespace CargoSet

/-- A `std::path::PathBuf`: absolute flag plus normal components. -/
structure FilePath where
  abs : Bool
  components : List String
deriving DecidableEq, Repr

/-- `Path::parent`: `none` when the path terminates in a root or is empty,
otherwise the path minus its last component. -/
def FilePath.parent (p : FilePath) : Option FilePath :=
  match p.components with
  | [] => none
  | _ :: _ => some ⟨p.abs, p.components.dropLast⟩

/-- `PathBuf::push` of a relative path: append its components. -/
def FilePath.pushAll (p : FilePath) (cs : List String) : FilePath :=
  ⟨p.abs, p.components ++ cs⟩

/-- Strict lexicographic order on character lists. -/
def charsLt : List Char → List Char → Bool
  | [], [] => false
  | [], _ :: _ => true
  | _ :: _, [] => false
  | c :: cs, d :: ds => if c < d then true else if d < c then false else charsLt cs ds

/-- Strict lexicographic order on strings (by their characters). -/
def strLt (a b : String) : Bool := charsLt a.data b.data

/-- Strict lexicographic order on component lists (string order on each
component), mirroring `Ord` on sequences of path components. -/
def compsLt : List String → List String → Bool
  | [], [] => false
  | [], _ :: _ => true
  | _ :: _, [] => false
  | a :: as, b :: bs => if strLt a b then true else if strLt b a then false else compsLt as bs

/-- `Ord` on `PathBuf`: an absolute path (starting with the `RootDir`
component) sorts before a relative one; otherwise compare components. -/
def FilePath.lt (p q : FilePath) : Bool :=
  if p.abs && !q.abs then true
  else if !p.abs && q.abs then false
  else compsLt p.components q.components

/-- The `[package]` table: `{ name, version }`.  The library only ever
reads `name` and overwrites `version` via `Inheritable::set`, so the
version is modelled as the plain string it is set to. -/
structure Package where
  name : String
  version : String
deriving DecidableEq, Repr

/-- `cargo_toml::Dependency`: the closed three-variant sum.  `detailed`
keeps the optional `version` plus the rest of the detail table,
represented by its `path` field. -/
inductive Dependency where
  | simple (version : String)
  | inherited
  | detailed (version : Option String) (path : Option String)
deriving DecidableEq, Repr

/-- A `BTreeMap<String, Dependency>` as an association list. -/
abbrev DepMap : Type := List (String × Dependency)

/-- The `[workspace]` table: declared member relative paths (pre-split
into components) and the workspace-level dependencies. -/
structure Workspace where
  members : List (List String)
  dependencies : DepMap
deriving DecidableEq, Repr

/-- `cargo_toml::Manifest`, restricted to the fields the library uses. -/
structure Manifest where
  package : Option Package
  workspace : Option Workspace
  dependencies : DepMap
deriving DecidableEq, Repr

/-- The loaded graph (`CargoManifest` in `cargo.rs`): root path, root
manifest, and the optional member map (sorted association list standing
for `BTreeMap<PathBuf, Manifest>`). -/
structure CargoManifest where
  root_path : FilePath
  root_manifest : Manifest
  members : Option (List (FilePath × Manifest))
deriving DecidableEq, Repr

/-- `CargoManifest::new`: members start out absent. -/
def CargoManifest.new (root_path : FilePath) (root_manifest : Manifest) : CargoManifest :=
  ⟨root_path, root_manifest, none⟩

/-- Stored bytes, abstracted at the parse boundary. -/
inductive Content where
  | valid (m : Manifest)
  | invalid
deriving DecidableEq, Repr

/-- `toml::to_string_pretty` of an in-memory manifest: total, and the
result parses back to the same manifest. -/
def serialize (m : Manifest) : Content := .valid m

/-- The `MockFileSystem` backing map. -/
abbrev FS : Type := List (FilePath × Content)

/-- An `std::io::Error` as the library observes it: kind `NotFound` with
its message. -/
inductive IoErr where
  | notFound (msg : String)
deriving DecidableEq, Repr

/-- Look a path up in the file map. -/
def lookupFS : FS → FilePath → Option Content
  | [], _ => none
  | (k, v) :: rest, p => if k = p then some v else lookupFS rest p

/-- `MockFileSystem::read`: the stored content, or `NotFound`. -/
def mockRead (fs : FS) (p : FilePath) : Except IoErr Content :=
  match lookupFS fs p with
  | none => .error (.notFound "File not found")
  | some c => .ok c

/-- `MockFileSystem::write`: overwrite an existing entry, or fail with
`NotFound` — the mock never creates a file. -/
def mockWrite : FS → FilePath → Content → Except IoErr FS
  | [], _, _ => .error (.notFound "File not found")
  | (k, v) :: rest, p, c =>
    if k = p then .ok ((k, c) :: rest)
    else
      match mockWrite rest p c with
      | .error e => .error e
      | .ok rest2 => .ok ((k, v) :: rest2)

/-- Modelled from the documented contract of `std::fs::read`, which
`RealFileSystem::read` delegates to: the stored content when the file
exists, a `NotFound` error otherwise. -/
def realRead (fs : FS) (p : FilePath) : Except IoErr Content :=
  match lookupFS fs p with
  | none => .error (.notFound "No such file or directory")
  | some c => .ok c

/-- Insert-or-replace in the file map. -/
def insertFS : FS → FilePath → Content → FS
  | [], p, c => [(p, c)]
  | (k, v) :: rest, p, c =>
    if k = p then (k, c) :: rest else (k, v) :: insertFS rest p c

/-- Modelled from the documented contract of `std::fs::write`, which
`RealFileSystem::write` delegates to: "This function will create a file
if it does not exist, and will entirely replace its contents if it
does."  (OS-level failures such as permissions are outside the model.) -/
def realWrite (fs : FS) (p : FilePath) (c : Content) : Except IoErr FS :=
  .ok (insertFS fs p c)

/-- An `anyhow` error as `cargo.rs` builds it: a fixed context string,
plus the inner io message for the read path.  No path is attached. -/
inductive LoadErr where
  | ioError (ctx : String) (ioMsg : String)
  | parseError (ctx : String)
deriving DecidableEq, Repr

/-- Outcome of loading: success, error, or a panic (the `unwrap` of
`root_path.parent()` in `load_children`). -/
inductive LoadResult (α : Type) where
  | ok (a : α)
  | err (e : LoadErr)
  | panicked
deriving DecidableEq, Repr

/-- `CargoManifestService::load_cargo`: read the file (context
"failed to read Cargo.toml from path"), then parse it (context
"failed to parse Cargo.toml"). -/
def load_cargo (fs : FS) (path : FilePath) : Except LoadErr Manifest :=
  match mockRead fs path with
  | .error (.notFound msg) => .error (.ioError "failed to read Cargo.toml from path" msg)
  | .ok .invalid => .error (.parseError "failed to parse Cargo.toml")
  | .ok (.valid m) => .ok m

/-- Resolved member identifier: root's containing directory, then the
declared relative path, then the conventional `Cargo.toml` filename
(`member_path` in `load_children`). -/
def resolveMember (dir : FilePath) (member : List String) : FilePath :=
  (dir.pushAll member).pushAll ["Cargo.toml"]

/-- Insert into the member map keeping it sorted by `FilePath.lt`,
replacing an equal key: `BTreeMap::insert` up to iteration order. -/
def insertSorted (k : FilePath) (v : Manifest) :
    List (FilePath × Manifest) → List (FilePath × Manifest)
  | [] => [(k, v)]
  | (k2, v2) :: rest =>
    if FilePath.lt k k2 then (k, v) :: (k2, v2) :: rest
    else if k = k2 then (k, v) :: rest
    else (k2, v2) :: insertSorted k v rest

/-- The member loop of `load_children`: for each declared member,
`root_path.parent().unwrap()` (panic when the root has no parent), push
the member's relative path and `"Cargo.toml"`, load, insert. -/
def load_children_list (fs : FS) (root_path : FilePath)
    (acc : List (FilePath × Manifest)) :
    List (List String) → LoadResult (List (FilePath × Manifest))
  | [] => .ok acc
  | member :: rest =>
    match root_path.parent with
    | none => .panicked
    | some dir =>
      let member_path := resolveMember dir member
      match load_cargo fs member_path with
      | .error e => .err e
      | .ok man => load_children_list fs root_path (insertSorted member_path man acc) rest

/-- `CargoManifestService::load_children`: when the root declares a
workspace, load every member; the members field is set only when the
resulting map is non-empty. -/
def load_children (fs : FS) (s : CargoManifest) : LoadResult CargoManifest :=
  match s.root_manifest.workspace with
  | none => .ok s
  | some ws =>
    match load_children_list fs s.root_path [] ws.members with
    | .panicked => .panicked
    | .err e => .err e
    | .ok members =>
      if members.length > 0 then .ok { s with members := some members }
      else .ok s

/-- `CargoManifestService::load_manifest`: load the root, then its
children. -/
def load_manifest (fs : FS) (path : FilePath) : LoadResult CargoManifest :=
  match load_cargo fs path with
  | .error e => .err e
  | .ok manifest => load_children fs (CargoManifest.new path manifest)

/-- The per-variant update of `update_dependencies`: Simple versions are
replaced, Inherited dependencies are untouched, Detailed dependencies
get `version = Some(new_version)`. -/
def updateDependency (version : String) : Dependency → Dependency
  | .simple _ => .simple version
  | .inherited => .inherited
  | .detailed _ path => .detailed (some version) path

/-- `CargoManifestService::update_dependencies`: mutate every entry
whose key equals the package name. -/
def update_dependencies (deps : DepMap) (package version : String) : DepMap :=
  deps.map fun nd => if nd.1 = package then (nd.1, updateDependency version nd.2) else nd

/-- The root-manifest mutation of `update_version` (lines 86–98): if the
root owns a package whose name matches, set its version; otherwise (no
package at all) update the root dependencies; then, when a workspace is
present, update the workspace dependencies. -/
def update_root (man : Manifest) (package version : String) : Manifest :=
  let man1 :=
    match man.package with
    | some pkg =>
      if pkg.name = package then { man with package := some { pkg with version := version } }
      else man
    | none => { man with dependencies := update_dependencies man.dependencies package version }
  match man1.workspace with
  | some ws =>
    let ws2 := { ws with dependencies := update_dependencies ws.dependencies package version }
    { man1 with workspace := some ws2 }
  | none => man1

/-- One iteration of the member loop of `update_version` (lines
108–125): a member owning a matching package has its version set in
memory and is not written; a member owning a non-matching package is
untouched; a member without a package has its dependencies updated and
is re-serialized and written.  Returns the new manifest, the file map,
and the log of writes performed. -/
def update_member (fs : FS) (package version : String) (path : FilePath)
    (man : Manifest) : Except IoErr (Manifest × FS × List (FilePath × Content)) :=
  match man.package with
  | some pkg =>
    if pkg.name = package then
      .ok ({ man with package := some { pkg with version := version } }, fs, [])
    else .ok (man, fs, [])
  | none =>
    let man2 := { man with dependencies := update_dependencies man.dependencies package version }
    match mockWrite fs path (serialize man2) with
    | .error e => .error e
    | .ok fs2 => .ok (man2, fs2, [(path, serialize man2)])

/-- The member loop of `update_version`, over the member map in
iteration order. -/
def update_members (fs : FS) (package version : String) :
    List (FilePath × Manifest) →
    Except IoErr (List (FilePath × Manifest) × FS × List (FilePath × Content))
  | [] => .ok ([], fs, [])
  | (path, man) :: rest =>
    match update_member fs package version path man with
    | .error e => .error e
    | .ok (man2, fs2, w) =>
      match update_members fs2 package version rest with
      | .error e => .error e
      | .ok (rest2, fs3, ws) => .ok ((path, man2) :: rest2, fs3, w ++ ws)

/-- `CargoManifestService::update_version`: mutate the root manifest,
always re-serialize and write the root, then run the member loop.
Returns the updated graph, the file map, and the log of writes in
order. -/
def update_version (fs : FS) (s : CargoManifest) (package version : String) :
    Except IoErr (CargoManifest × FS × List (FilePath × Content)) :=
  let root2 := update_root s.root_manifest package version
  match mockWrite fs s.root_path (serialize root2) with
  | .error e => .error e
  | .ok fs1 =>
    match s.members with
    | none => .ok ({ s with root_manifest := root2 }, fs1, [(s.root_path, serialize root2)])
    | some mems =>
      match update_members fs1 package version mems with
      | .error e => .error e
      | .ok (mems2, fs2, ws) =>
        .ok ({ s with root_manifest := root2, members := some mems2 }, fs2,
          (s.root_path, serialize root2) :: ws)

/-- The in-memory effect of one member-loop iteration of `update_version`
on a member's manifest: a matching package gets its version set, a
non-matching package leaves the manifest alone, a package-less member
gets its dependencies updated. -/
def memberUpdate (package version : String) (m : Manifest) : Manifest :=
  match m.package with
  | some pkg =>
    if pkg.name = package then { m with package := some { pkg with version := version } }
    else m
  | none => { m with dependencies := update_dependencies m.dependencies package version }

/-- The persistence log of the member loop: exactly the members without
a package descriptor are written, with their updated serialized
content. -/
def memberWrites (package version : String)
    (mems : List (FilePath × Manifest)) : List (FilePath × Content) :=
  mems.filterMap fun pm =>
    if pm.2.package = none then some (pm.1, serialize (memberUpdate package version pm.2))
    else none

/-- Erase every version field of a dependency, keeping its variant and
all other payload. -/
def Dependency.strip : Dependency → Dependency
  | .simple _ => .simple ""
  | .inherited => .inherited
  | .detailed _ path => .detailed none path

/-- Erase every version field of a dependencies mapping. -/
def stripDeps (d : DepMap) : DepMap := d.map fun nd => (nd.1, nd.2.strip)

/-- Erase the version of a package descriptor, keeping its name. -/
def Package.strip (p : Package) : Package := ⟨p.name, ""⟩

/-- Erase every version field of a workspace table, keeping the member
list and the dependency keys/variants. -/
def Workspace.strip (w : Workspace) : Workspace := ⟨w.members, stripDeps w.dependencies⟩

/-- The version-erased skeleton of a manifest: presence and name of the
package descriptor, presence, member list and dependency keys/variants
of the workspace, and the dependency keys/variants.  Two manifests with
equal skeletons differ at most in version fields. -/
def Manifest.strip (m : Manifest) : Manifest :=
  ⟨m.package.map Package.strip, m.workspace.map Workspace.strip, stripDeps m.dependencies⟩

/-! ### Concrete instances used to exercise the theorems

A small workspace in the shape of the repository's own tests: a root
package `root` with workspace members `agg` (a pure aggregator that
depends on `child`), `child` and `other`. -/

def exRootP : FilePath := ⟨false, ["Cargo.toml"]⟩

def exChildP : FilePath := ⟨false, ["child", "Cargo.toml"]⟩

def exOtherP : FilePath := ⟨false, ["other", "Cargo.toml"]⟩

def exAggP : FilePath := ⟨false, ["agg", "Cargo.toml"]⟩

def exChildMan : Manifest := ⟨some ⟨"child", "0.2.0"⟩, none, []⟩

def exChildMan2 : Manifest := ⟨some ⟨"child", "0.3.0"⟩, none, []⟩

def exOtherMan : Manifest := ⟨some ⟨"other", "0.1.0"⟩, none, []⟩

def exAggMan : Manifest := ⟨none, none, [("child", .simple "0.2.0")]⟩

def exAggMan2 : Manifest := ⟨none, none, [("child", .simple "0.3.0")]⟩

def exRootMan : Manifest :=
  ⟨some ⟨"root", "0.1.0"⟩,
   some ⟨[["agg"], ["child"], ["other"]],
     [("child", .detailed (some "0.2.0") (some "child"))]⟩,
   [("child", .inherited)]⟩

def exRootMan2 : Manifest :=
  ⟨some ⟨"root", "0.1.0"⟩,
   some ⟨[["agg"], ["child"], ["other"]],
     [("child", .detailed (some "0.3.0") (some "child"))]⟩,
   [("child", .inherited)]⟩

def exMembers : List (FilePath × Manifest) :=
  [(exAggP, exAggMan), (exChildP, exChildMan), (exOtherP, exOtherMan)]

def exMembers2 : List (FilePath × Manifest) :=
  [(exAggP, exAggMan2), (exChildP, exChildMan2), (exOtherP, exOtherMan)]

def exGraph : CargoManifest := ⟨exRootP, exRootMan, some exMembers⟩

def exGraph2 : CargoManifest := ⟨exRootP, exRootMan2, some exMembers2⟩

def exFS : FS := [(exRootP, .valid exRootMan), (exAggP, .valid exAggMan),
  (exChildP, .valid exChildMan), (exOtherP, .valid exOtherMan)]

def exFS2 : FS := [(exRootP, .valid exRootMan2), (exAggP, .valid exAggMan2),
  (exChildP, .valid exChildMan), (exOtherP, .valid exOtherMan)]

def exWrites : List (FilePath × Content) :=
  [(exRootP, .valid exRootMan2), (exAggP, .valid exAggMan2)]

/-- A root that owns a package descriptor (named `root`, not matching
the target) and also has a `child` dependency of its own. -/
def c2Man : Manifest := ⟨some ⟨"root", "0.1.0"⟩, none, [("child", .simple "0.1.0")]⟩

def c2Graph : CargoManifest := ⟨exRootP, c2Man, none⟩

def c2FS : FS := [(exRootP, .valid c2Man)]

/-- Two roots declaring one missing member each, with different member
names, to compare the errors they produce. -/
def c4ManA : Manifest := ⟨none, some ⟨[["childA"]], []⟩, []⟩

def c4ManB : Manifest := ⟨none, some ⟨[["childB"]], []⟩, []⟩

def c4FsA : FS := [(exRootP, .valid c4ManA)]

def c4FsB : FS := [(exRootP, .valid c4ManB)]

/-- The resolved identifier of the member `childA` declared by `c4ManA`. -/
def c4BadP : FilePath := ⟨false, ["childA", "Cargo.toml"]⟩

/-- A root declaring member `childA` whose resource exists but holds
bytes that fail to parse. -/
def c4FsP : FS := [(exRootP, .valid c4ManA), (c4BadP, .invalid)]

/-- A root stored at the filesystem root `/`, whose path has no parent,
declaring one member. -/
def c10Root : FilePath := ⟨true, []⟩

def c10Man : Manifest := ⟨none, some ⟨[["child"]], []⟩, []⟩

def c10FS : FS := [(c10Root, .valid c10Man)]

/-! ### Order lemmas for the path order -/

theorem charsLt_trans : ∀ a b c : List Char,
    charsLt a b = true → charsLt b c = true → charsLt a c = true
  | [], [], _, h, _ => absurd h (by simp [charsLt])
  | [], _ :: _, [], _, h2 => absurd h2 (by simp [charsLt])
  | [], _ :: _, _ :: _, _, _ => by simp [charsLt]
  | _ :: _, [], _, h1, _ => absurd h1 (by simp [charsLt])
  | _ :: _, _ :: _, [], _, h2 => absurd h2 (by simp [charsLt])
  | a :: as, b :: bs, c :: cs, h1, h2 => by
    simp only [charsLt] at h1 h2 ⊢
    rcases lt_trichotomy a b with hab | hab | hab
    · rcases lt_trichotomy b c with hbc | hbc | hbc
      · rw [if_pos (lt_trans hab hbc)]
      · subst hbc
        rw [if_pos hab]
      · rw [if_neg (asymm hbc), if_pos hbc] at h2
        exact absurd h2 (by simp)
    · subst hab
      rw [if_neg (lt_irrefl a), if_neg (lt_irrefl a)] at h1
      rcases lt_trichotomy a c with hac | hac | hac
      · rw [if_pos hac]
      · subst hac
        rw [if_neg (lt_irrefl a), if_neg (lt_irrefl a)] at h2 ⊢
        exact charsLt_trans as bs cs h1 h2
      · rw [if_neg (asymm hac), if_pos hac] at h2
        exact absurd h2 (by simp)
    · rw [if_neg (asymm hab), if_pos hab] at h1
      exact absurd h1 (by simp)

theorem charsLt_connex : ∀ a b : List Char,
    charsLt a b = false → charsLt b a = false → a = b
  | [], [], _, _ => rfl
  | [], _ :: _, h, _ => absurd h (by simp [charsLt])
  | _ :: _, [], _, h2 => absurd h2 (by simp [charsLt])
  | a :: as, b :: bs, h1, h2 => by
    simp only [charsLt] at h1 h2
    rcases lt_trichotomy a b with hab | hab | hab
    · rw [if_pos hab] at h1
      exact absurd h1 (by simp)
    · subst hab
      rw [if_neg (lt_irrefl a), if_neg (lt_irrefl a)] at h1 h2
      rw [charsLt_connex as bs h1 h2]
    · rw [if_pos hab] at h2
      exact absurd h2 (by simp)

theorem strLt_trans {a b c : String} (h1 : strLt a b = true) (h2 : strLt b c = true) :
    strLt a c = true :=
  charsLt_trans a.data b.data c.data h1 h2

theorem strLt_connex {a b : String} (h1 : strLt a b = false) (h2 : strLt b a = false) :
    a = b := by
  have h := charsLt_connex a.data b.data h1 h2
  cases a
  cases b
  exact congrArg String.mk (by simpa using h)

theorem strLt_irrefl (a : String) : strLt a a = false := by
  unfold strLt
  generalize a.data = l
  induction l with
  | nil => rfl
  | cons c cs ih => simp [charsLt, ih]

theorem strLt_asymm {a b : String} (h : strLt a b = true) : strLt b a = false := by
  cases hv : strLt b a
  · rfl
  · have := strLt_trans h hv
    rw [strLt_irrefl] at this
    cases this

theorem strLt_trichotomy (a b : String) : strLt a b = true ∨ a = b ∨ strLt b a = true := by
  cases h1 : strLt a b
  · cases h2 : strLt b a
    · exact Or.inr (Or.inl (strLt_connex h1 h2))
    · exact Or.inr (Or.inr rfl)
  · exact Or.inl rfl

theorem compsLt_trans : ∀ a b c : List String,
    compsLt a b = true → compsLt b c = true → compsLt a c = true
  | [], [], _, h, _ => absurd h (by simp [compsLt])
  | [], _ :: _, [], _, h2 => absurd h2 (by simp [compsLt])
  | [], _ :: _, _ :: _, _, _ => by simp [compsLt]
  | _ :: _, [], _, h1, _ => absurd h1 (by simp [compsLt])
  | _ :: _, _ :: _, [], _, h2 => absurd h2 (by simp [compsLt])
  | a :: as, b :: bs, c :: cs, h1, h2 => by
    simp only [compsLt] at h1 h2 ⊢
    rcases strLt_trichotomy a b with hab | hab | hab
    · rcases strLt_trichotomy b c with hbc | hbc | hbc
      · rw [if_pos (strLt_trans hab hbc)]
      · subst hbc
        rw [if_pos hab]
      · rw [if_neg (by simp [strLt_asymm hbc]), if_pos hbc] at h2
        exact absurd h2 (by simp)
    · subst hab
      rw [if_neg (by simp [strLt_irrefl]), if_neg (by simp [strLt_irrefl])] at h1
      rcases strLt_trichotomy a c with hac | hac | hac
      · rw [if_pos hac]
      · subst hac
        rw [if_neg (by simp [strLt_irrefl]), if_neg (by simp [strLt_irrefl])] at h2 ⊢
        exact compsLt_trans as bs cs h1 h2
      · rw [if_neg (by simp [strLt_asymm hac]), if_pos hac] at h2
        exact absurd h2 (by simp)
    · rw [if_neg (by simp [strLt_asymm hab]), if_pos hab] at h1
      exact absurd h1 (by simp)

theorem compsLt_connex : ∀ a b : List String,
    compsLt a b = false → compsLt b a = false → a = b
  | [], [], _, _ => rfl
  | [], _ :: _, h, _ => absurd h (by simp [compsLt])
  | _ :: _, [], _, h2 => absurd h2 (by simp [compsLt])
  | a :: as, b :: bs, h1, h2 => by
    simp only [compsLt] at h1 h2
    rcases strLt_trichotomy a b with hab | hab | hab
    · rw [if_pos hab] at h1
      exact absurd h1 (by simp)
    · subst hab
      rw [if_neg (by simp [strLt_irrefl]), if_neg (by simp [strLt_irrefl])] at h1 h2
      rw [compsLt_connex as bs h1 h2]
    · rw [if_pos hab] at h2
      exact absurd h2 (by simp)

theorem filePathLt_trans {a b c : FilePath}
    (h1 : FilePath.lt a b = true) (h2 : FilePath.lt b c = true) :
    FilePath.lt a c = true := by
  obtain ⟨xa, la⟩ := a
  obtain ⟨xb, lb⟩ := b
  obtain ⟨xc, lc⟩ := c
  simp only [FilePath.lt] at h1 h2 ⊢
  cases xa <;> cases xb <;> cases xc <;> simp_all <;>
    exact compsLt_trans la lb lc h1 h2

theorem filePathLt_connex {a b : FilePath}
    (h1 : FilePath.lt a b = false) (h2 : FilePath.lt b a = false) : a = b := by
  obtain ⟨xa, la⟩ := a
  obtain ⟨xb, lb⟩ := b
  simp only [FilePath.lt] at h1 h2
  cases xa <;> cases xb <;> simp_all
  · exact compsLt_connex la lb h1 h2
  · exact compsLt_connex la lb h1 h2

theorem filePathLt_irrefl (a : FilePath) : FilePath.lt a a = false := by
  obtain ⟨xa, la⟩ := a
  simp only [FilePath.lt]
  cases xa <;> simp
  all_goals
    induction la with
    | nil => simp [compsLt]
    | cons x xs ih => simp [compsLt, ih, strLt_irrefl]

/-! ### Lemmas about the sorted member map -/

theorem insertSorted_ne_nil (k : FilePath) (v : Manifest) :
    ∀ l : List (FilePath × Manifest), insertSorted k v l ≠ []
  | [] => by simp [insertSorted]
  | (k2, v2) :: rest => by
    simp only [insertSorted]
    split_ifs <;> simp

theorem mem_keys_insertSorted (k x : FilePath) (v : Manifest) :
    ∀ l : List (FilePath × Manifest),
      (x ∈ (insertSorted k v l).map Prod.fst ↔ x = k ∨ x ∈ l.map Prod.fst)
  | [] => by simp [insertSorted]
  | (k2, v2) :: rest => by
    simp only [insertSorted]
    split_ifs with h1 h2
    · simp
    · subst h2
      simp
    · simp only [List.map_cons, List.mem_cons, mem_keys_insertSorted k x v rest]
      tauto

theorem insertSorted_sorted (k : FilePath) (v : Manifest) :
    ∀ l : List (FilePath × Manifest),
      ((l.map Prod.fst).Pairwise fun a b => FilePath.lt a b = true) →
      (((insertSorted k v l).map Prod.fst).Pairwise fun a b => FilePath.lt a b = true)
  | [], _ => by simp [insertSorted]
  | (k2, v2) :: rest, h => by
    simp only [List.map_cons, List.pairwise_cons] at h
    obtain ⟨hk2, hrest⟩ := h
    simp only [insertSorted]
    split_ifs with h1 h2
    · simp only [List.map_cons, List.pairwise_cons]
      refine ⟨?_, hk2, hrest⟩
      intro b hb
      rcases List.mem_cons.mp hb with hb | hb
      · subst hb
        exact h1
      · exact filePathLt_trans h1 (hk2 b hb)
    · subst h2
      simp only [List.map_cons, List.pairwise_cons]
      exact ⟨hk2, hrest⟩
    · have hlt : FilePath.lt k2 k = true := by
        by_contra hcon
        exact h2 (filePathLt_connex (Bool.eq_false_iff.mpr h1) (Bool.eq_false_iff.mpr hcon))
      simp only [List.map_cons, List.pairwise_cons]
      constructor
      · intro b hb
        rcases (mem_keys_insertSorted k b v rest).mp hb with hb | hb
        · subst hb
          exact hlt
        · exact hk2 b hb
      · exact insertSorted_sorted k v rest hrest

/-! ### Lemmas about the mock file map -/

theorem mockWrite_error_of_lookup_none (p : FilePath) (c : Content) :
    ∀ fs : FS, lookupFS fs p = none →
      mockWrite fs p c = .error (.notFound "File not found")
  | [], _ => rfl
  | (k, v) :: rest, h => by
    simp only [lookupFS] at h
    simp only [mockWrite]
    split_ifs with hk
    · simp [hk] at h
    · rw [mockWrite_error_of_lookup_none p c rest (by simpa [hk] using h)]

theorem mockWrite_ok_of_lookup_some (p : FilePath) (c : Content) :
    ∀ fs : FS, (lookupFS fs p).isSome → ∃ fs2, mockWrite fs p c = .ok fs2
  | [], h => by simp [lookupFS] at h
  | (k, v) :: rest, h => by
    simp only [mockWrite]
    split_ifs with hk
    · exact ⟨(k, c) :: rest, rfl⟩
    · simp only [lookupFS, if_neg hk] at h
      obtain ⟨fs2, hfs2⟩ := mockWrite_ok_of_lookup_some p c rest h
      exact ⟨(k, v) :: fs2, by rw [hfs2]⟩

theorem lookupFS_mockWrite (p : FilePath) (c : Content) :
    ∀ fs fs2 : FS, mockWrite fs p c = .ok fs2 →
      ∀ q, lookupFS fs2 q = if q = p then some c else lookupFS fs q
  | [], fs2, h => by simp [mockWrite] at h
  | (k, v) :: rest, fs2, h => by
    intro q
    simp only [mockWrite] at h
    split_ifs at h with hk
    · cases h
      subst hk
      simp only [lookupFS]
      split_ifs <;> simp_all
    · revert h
      match hrec : mockWrite rest p c with
      | .error e => intro h; cases h
      | .ok rest2 =>
        intro h
        cases h
        have hq := lookupFS_mockWrite p c rest rest2 hrec q
        simp only [lookupFS, hq]
        split_ifs <;> simp_all

theorem lookupFS_insertFS (p : FilePath) (c : Content) :
    ∀ fs : FS, ∀ q, lookupFS (insertFS fs p c) q = if q = p then some c else lookupFS fs q
  | [], q => by
    simp only [insertFS, lookupFS]
    split_ifs <;> simp_all
  | (k, v) :: rest, q => by
    simp only [insertFS]
    by_cases hk : k = p
    · rw [if_pos hk]
      subst hk
      show (if k = q then some c else lookupFS rest q)
          = if q = k then some c else if k = q then some v else lookupFS rest q
      split_ifs <;> simp_all
    · rw [if_neg hk]
      show (if k = q then some v else lookupFS (insertFS rest p c) q)
          = if q = p then some c else if k = q then some v else lookupFS rest q
      rw [lookupFS_insertFS p c rest q]
      split_ifs <;> simp_all

/-! ### Characterizing the update engine -/

theorem update_member_ok {fs : FS} {package version : String} {path : FilePath}
    {man man2 : Manifest} {fs2 : FS} {w : List (FilePath × Content)}
    (h : update_member fs package version path man = .ok (man2, fs2, w)) :
    man2 = memberUpdate package version man ∧
    ((man.package = none ∧ w = [(path, serialize man2)] ∧
        mockWrite fs path (serialize man2) = .ok fs2) ∨
      (man.package ≠ none ∧ w = [] ∧ fs2 = fs)) := by
  simp only [update_member] at h
  split at h
  · rename_i pkg hpkg
    split_ifs at h with hname
    · cases h
      refine ⟨?_, Or.inr ⟨by rw [hpkg]; simp, rfl, rfl⟩⟩
      simp [memberUpdate, hpkg, hname]
    · cases h
      refine ⟨?_, Or.inr ⟨by rw [hpkg]; simp, rfl, rfl⟩⟩
      simp [memberUpdate, hpkg, hname]
  · rename_i hpkg
    split at h
    · cases h
    · rename_i fsw hw
      cases h
      refine ⟨?_, Or.inl ⟨hpkg, ?_, ?_⟩⟩
      · simp [memberUpdate, hpkg]
      · simp [memberUpdate, hpkg]
      · exact hw

theorem update_members_ok {package version : String} :
    ∀ {mems : List (FilePath × Manifest)} {fs : FS}
      {mems2 : List (FilePath × Manifest)} {fs2 : FS} {writes : List (FilePath × Content)},
      update_members fs package version mems = .ok (mems2, fs2, writes) →
      mems2 = mems.map (fun pm => (pm.1, memberUpdate package version pm.2)) ∧
      writes = memberWrites package version mems ∧
      ∀ q, q ∉ writes.map Prod.fst → lookupFS fs2 q = lookupFS fs q
  | [], fs, mems2, fs2, writes, h => by
    simp only [update_members] at h
    cases h
    exact ⟨rfl, rfl, fun q _ => rfl⟩
  | (path, man) :: rest, fs, mems2, fs2, writes, h => by
    simp only [update_members] at h
    split at h
    · cases h
    · rename_i v3 man2 fsU w hU
      split at h
      · cases h
      · rename_i v4 rest2 fs3 ws hR
        cases h
        obtain ⟨hman2, hcases⟩ := update_member_ok hU
        obtain ⟨hrest2, hws, hframe⟩ := update_members_ok hR
        subst hman2
        refine ⟨by simp [hrest2], ?_, ?_⟩
        · rcases hcases with ⟨hpk, hw, _⟩ | ⟨hpk, hw, _⟩
          · subst hw
            simp only [memberWrites, List.filterMap_cons, hpk, if_pos rfl, hws]
            rfl
          · subst hw
            simp only [memberWrites, List.filterMap_cons]
            rw [if_neg hpk, hws]
            rfl
        · intro q hq
          rcases hcases with ⟨hpk, hw, hwrite⟩ | ⟨hpk, hw, hfs⟩
          · subst hw
            simp only [List.map_append, List.mem_append] at hq
            push_neg at hq
            rw [hframe q hq.2, lookupFS_mockWrite _ _ fs fsU hwrite q,
              if_neg (by simpa using hq.1)]
          · subst hw
            subst hfs
            simp only [List.nil_append] at hq ⊢
            exact hframe q hq

theorem update_version_ok {fs : FS} {s : CargoManifest} {package version : String}
    {s2 : CargoManifest} {fs2 : FS} {writes : List (FilePath × Content)}
    (h : update_version fs s package version = .ok (s2, fs2, writes)) :
    s2.root_path = s.root_path ∧
    s2.root_manifest = update_root s.root_manifest package version ∧
    ∃ fs1, mockWrite fs s.root_path (serialize (update_root s.root_manifest package version))
        = .ok fs1 ∧
      ((s.members = none ∧ s2.members = none ∧ fs2 = fs1 ∧
          writes = [(s.root_path, serialize (update_root s.root_manifest package version))]) ∨
        (∃ mems mems2 ws, s.members = some mems ∧
          update_members fs1 package version mems = .ok (mems2, fs2, ws) ∧
          s2.members = some mems2 ∧
          writes = (s.root_path, serialize (update_root s.root_manifest package version)) :: ws)) := by
  simp only [update_version] at h
  split at h
  · cases h
  · rename_i fs1 hw
    split at h
    · rename_i hmem
      cases h
      exact ⟨rfl, rfl, fs2, hw, Or.inl ⟨hmem, hmem, rfl, rfl⟩⟩
    · rename_i mems hmem
      split at h
      · cases h
      · rename_i v3 mems2x fs3 ws hU
        cases h
        exact ⟨rfl, rfl, fs1, hw, Or.inr ⟨mems, mems2x, ws, hmem, hU, rfl, rfl⟩⟩

/-! ### Algebraic facts about the mutation helpers -/

theorem update_dependencies_not_mem {deps : DepMap} {package : String} (version : String)
    (h : package ∉ deps.map Prod.fst) :
    update_dependencies deps package version = deps := by
  induction deps with
  | nil => rfl
  | cons hd tl ih =>
    simp only [List.map_cons, List.mem_cons, not_or] at h
    show (if hd.1 = package then (hd.1, updateDependency version hd.2) else hd)
        :: update_dependencies tl package version = hd :: tl
    rw [if_neg (fun he => h.1 he.symm), ih h.2]

theorem update_root_dependencies (m : Manifest) (package version : String) :
    (update_root m package version).dependencies =
      if m.package = none then update_dependencies m.dependencies package version
      else m.dependencies := by
  obtain ⟨pk, w, d⟩ := m
  cases pk with
  | none => cases w <;> simp [update_root]
  | some pkg => by_cases hname : pkg.name = package <;> cases w <;> simp [update_root, hname]

theorem update_root_workspace (m : Manifest) (package version : String) :
    (update_root m package version).workspace =
      m.workspace.map fun ws =>
        { ws with dependencies := update_dependencies ws.dependencies package version } := by
  obtain ⟨pk, w, d⟩ := m
  cases pk with
  | none => cases w <;> simp [update_root]
  | some pkg => by_cases hname : pkg.name = package <;> cases w <;> simp [update_root, hname]

theorem memberUpdate_dependencies (m : Manifest) (package version : String) :
    (memberUpdate package version m).dependencies =
      if m.package = none then update_dependencies m.dependencies package version
      else m.dependencies := by
  obtain ⟨pk, w, d⟩ := m
  cases pk with
  | none => rfl
  | some pkg => by_cases hname : pkg.name = package <;> simp [memberUpdate, hname]

theorem memberUpdate_matched {m : Manifest} {pkg : Package} {package : String}
    (version : String) (hpkg : m.package = some pkg) (hname : pkg.name = package) :
    memberUpdate package version m =
      { m with package := some { pkg with version := version } } := by
  obtain ⟨pk, w, d⟩ := m
  cases hpkg
  simp [memberUpdate, hname]

theorem memberUpdate_id {m : Manifest} {package : String} (version : String)
    (hpkg : ∀ pkg, m.package = some pkg → pkg.name ≠ package)
    (hdep : package ∉ m.dependencies.map Prod.fst) :
    memberUpdate package version m = m := by
  obtain ⟨pk, w, d⟩ := m
  cases pk with
  | none => simp [memberUpdate, update_dependencies_not_mem version hdep]
  | some pkg => simp [memberUpdate, hpkg pkg rfl]

theorem update_root_id {m : Manifest} {package : String} (version : String)
    (hpkg : ∀ pkg, m.package = some pkg → pkg.name ≠ package)
    (hdep : package ∉ m.dependencies.map Prod.fst)
    (hws : ∀ ws, m.workspace = some ws → package ∉ ws.dependencies.map Prod.fst) :
    update_root m package version = m := by
  obtain ⟨pk, w, d⟩ := m
  cases pk with
  | none =>
    cases w with
    | none => simp [update_root, update_dependencies_not_mem version hdep]
    | some ws =>
      simp [update_root, update_dependencies_not_mem version hdep,
        update_dependencies_not_mem version (hws ws rfl)]
  | some pkg =>
    cases w with
    | none => simp [update_root, hpkg pkg rfl]
    | some ws =>
      simp [update_root, hpkg pkg rfl, update_dependencies_not_mem version (hws ws rfl)]

theorem stripDeps_update (deps : DepMap) (package version : String) :
    stripDeps (update_dependencies deps package version) = stripDeps deps := by
  induction deps with
  | nil => rfl
  | cons hd tl ih =>
    show ((if hd.1 = package then (hd.1, updateDependency version hd.2) else hd).1,
        (if hd.1 = package then (hd.1, updateDependency version hd.2) else hd).2.strip)
        :: stripDeps (update_dependencies tl package version)
        = (hd.1, hd.2.strip) :: stripDeps tl
    rw [ih]
    by_cases hk : hd.1 = package
    · rw [if_pos hk]
      obtain ⟨n, dep⟩ := hd
      cases dep <;> rfl
    · rw [if_neg hk]

theorem strip_update_root (m : Manifest) (package version : String) :
    (update_root m package version).strip = m.strip := by
  obtain ⟨pk, w, d⟩ := m
  cases pk with
  | none =>
    cases w with
    | none => simp [update_root, Manifest.strip, stripDeps_update]
    | some ws => simp [update_root, Manifest.strip, Workspace.strip, stripDeps_update]
  | some pkg =>
    by_cases hname : pkg.name = package <;> cases w <;>
      simp [update_root, Manifest.strip, Workspace.strip, Package.strip, stripDeps_update, hname]

theorem strip_memberUpdate (m : Manifest) (package version : String) :
    (memberUpdate package version m).strip = m.strip := by
  obtain ⟨pk, w, d⟩ := m
  cases pk with
  | none => simp [memberUpdate, Manifest.strip, stripDeps_update]
  | some pkg =>
    by_cases hname : pkg.name = package <;>
      simp [memberUpdate, Manifest.strip, Package.strip, hname]

/-! ### Facts about the graph loader -/

theorem load_cargo_not_found {fs : FS} {p : FilePath} (h : lookupFS fs p = none) :
    load_cargo fs p = .error (.ioError "failed to read Cargo.toml from path" "File not found") := by
  unfold load_cargo mockRead
  rw [h]

theorem load_cargo_invalid {fs : FS} {p : FilePath} (h : lookupFS fs p = some .invalid) :
    load_cargo fs p = .error (.parseError "failed to parse Cargo.toml") := by
  unfold load_cargo mockRead
  rw [h]

theorem load_children_list_keys {fs : FS} {rp dir : FilePath} (hdir : rp.parent = some dir) :
    ∀ (l : List (List String)) (acc res : List (FilePath × Manifest)),
      load_children_list fs rp acc l = .ok res →
      ∀ x, x ∈ res.map Prod.fst ↔ x ∈ acc.map Prod.fst ∨ ∃ m ∈ l, x = resolveMember dir m
  | [], acc, res, h => by
    cases h
    simp
  | member :: rest, acc, res, h => by
    simp only [load_children_list, hdir] at h
    split at h
    · cases h
    · rename_i man hman
      intro x
      rw [load_children_list_keys hdir rest _ res h x, mem_keys_insertSorted]
      simp only [List.mem_cons]
      constructor
      · rintro ((hx | hx) | ⟨m, hm, hx⟩)
        · exact Or.inr ⟨member, Or.inl rfl, hx⟩
        · exact Or.inl hx
        · exact Or.inr ⟨m, Or.inr hm, hx⟩
      · rintro (hx | ⟨m, hm | hm, hx⟩)
        · exact Or.inl (Or.inr hx)
        · exact Or.inl (Or.inl (by rw [hx, hm]))
        · exact Or.inr ⟨m, hm, hx⟩

theorem load_children_list_sorted {fs : FS} {rp : FilePath} :
    ∀ (l : List (List String)) (acc res : List (FilePath × Manifest)),
      load_children_list fs rp acc l = .ok res →
      ((acc.map Prod.fst).Pairwise fun a b => FilePath.lt a b = true) →
      ((res.map Prod.fst).Pairwise fun a b => FilePath.lt a b = true)
  | [], acc, res, h, hs => by
    cases h
    exact hs
  | member :: rest, acc, res, h, hs => by
    simp only [load_children_list] at h
    split at h
    · cases h
    · rename_i dir hdir
      split at h
      · cases h
      · rename_i man hman
        exact load_children_list_sorted rest _ res h (insertSorted_sorted _ _ _ hs)

theorem load_children_list_ne_nil {fs : FS} {rp : FilePath} :
    ∀ (l : List (List String)) (acc res : List (FilePath × Manifest)),
      load_children_list fs rp acc l = .ok res → acc ≠ [] → res ≠ []
  | [], acc, res, h, hne => by
    cases h
    exact hne
  | member :: rest, acc, res, h, _ => by
    simp only [load_children_list] at h
    split at h
    · cases h
    · rename_i dir hdir
      split at h
      · cases h
      · rename_i man hman
        exact load_children_list_ne_nil rest _ res h (insertSorted_ne_nil _ _ _)

theorem load_children_list_no_panic {fs : FS} {rp dir : FilePath} (hdir : rp.parent = some dir) :
    ∀ (l : List (List String)) (acc : List (FilePath × Manifest)),
      load_children_list fs rp acc l ≠ .panicked
  | [], acc => by simp [load_children_list]
  | member :: rest, acc => by
    simp only [load_children_list, hdir]
    split
    · exact fun hcon => nomatch hcon
    · exact load_children_list_no_panic hdir rest _

theorem load_children_list_first_err {fs : FS} {rp dir : FilePath} (hdir : rp.parent = some dir)
    {bad : List String} (rest : List (List String)) {e : LoadErr}
    (hbad : load_cargo fs (resolveMember dir bad) = .error e) :
    ∀ (good : List (List String)) (acc : List (FilePath × Manifest)),
      (∀ m ∈ good, ∃ mm, load_cargo fs (resolveMember dir m) = .ok mm) →
      load_children_list fs rp acc (good ++ bad :: rest) = .err e
  | [], acc, _ => by
    simp only [List.nil_append, load_children_list, hdir, hbad]
  | m :: good, acc, hgood => by
    obtain ⟨mm, hmm⟩ := hgood m (List.mem_cons_self m good)
    simp only [List.cons_append, load_children_list, hdir, hmm]
    exact load_children_list_first_err hdir rest hbad good _
      fun x hx => hgood x (List.mem_cons_of_mem m hx)

theorem load_manifest_ok {fs : FS} {path : FilePath} {s : CargoManifest}
    (h : load_manifest fs path = .ok s) :
    s.root_path = path ∧ load_cargo fs path = .ok s.root_manifest ∧
    ((s.root_manifest.workspace = none ∧ s.members = none) ∨
      ∃ ws res, s.root_manifest.workspace = some ws ∧
        load_children_list fs path [] ws.members = .ok res ∧
        ((0 < res.length ∧ s.members = some res) ∨ (res = [] ∧ s.members = none))) := by
  simp only [load_manifest, load_children, CargoManifest.new] at h
  split at h
  · cases h
  · rename_i man hman
    split at h
    · rename_i hws
      cases h
      exact ⟨rfl, hman, Or.inl ⟨hws, rfl⟩⟩
    · rename_i ws hws
      split at h
      · cases h
      · cases h
      · rename_i res hres
        split_ifs at h with hlen
        · cases h
          exact ⟨rfl, hman, Or.inr ⟨ws, res, hws, hres, Or.inl ⟨hlen, rfl⟩⟩⟩
        · cases h
          have hnil : res = [] := by
            cases res with
            | nil => rfl
            | cons a l => simp at hlen
          exact ⟨rfl, hman, Or.inr ⟨ws, res, hws, hres, Or.inr ⟨hnil, rfl⟩⟩⟩

theorem load_children_list_ne_nil_of_cons {fs : FS} {rp : FilePath} :
    ∀ (l : List (List String)) (acc res : List (FilePath × Manifest)),
      load_children_list fs rp acc l = .ok res → l ≠ [] → res ≠ []
  | [], _, _, _, hne => absurd rfl hne
  | member :: rest, acc, res, h, _ => by
    simp only [load_children_list] at h
    split at h
    · cases h
    · rename_i dir hdir
      split at h
      · cases h
      · rename_i man hman
        exact load_children_list_ne_nil rest _ res h (insertSorted_ne_nil _ _ _)

theorem memberWrites_keys (package version : String) :
    ∀ mems : List (FilePath × Manifest),
      (memberWrites package version mems).map Prod.fst
        = mems.filterMap fun pm => if pm.2.package = none then some pm.1 else none
  | [] => rfl
  | pm :: rest => by
    simp only [memberWrites, List.filterMap_cons]
    by_cases hn : pm.2.package = none
    · rw [if_pos hn, if_pos hn]
      simp only [List.map_cons]
      rw [show (List.filterMap _ rest).map Prod.fst
          = (memberWrites package version rest).map Prod.fst from rfl,
        memberWrites_keys package version rest]
    · rw [if_neg hn, if_neg hn]
      exact memberWrites_keys package version rest

theorem update_version_members_map {fs : FS} {s : CargoManifest} {package version : String}
    {s2 : CargoManifest} {fs2 : FS} {writes : List (FilePath × Content)}
    (h : update_version fs s package version = .ok (s2, fs2, writes)) :
    s2.members = s.members.map (List.map fun pm => (pm.1, memberUpdate package version pm.2)) := by
  obtain ⟨-, -, fs1, -, hcase⟩ := update_version_ok h
  rcases hcase with ⟨hm1, hm2, -, -⟩ | ⟨mems, mems2, ws, hm1, hU, hm2, -⟩
  · rw [hm1, hm2]
    rfl
  · obtain ⟨hmems2, -, -⟩ := update_members_ok hU
    rw [hm1, hm2, hmems2]
    rfl

/-! ### The claims -/

/-- Claim C5: for every dependency entry whose key equals the target
package name that the engine updates, a Simple dependency has its
version string replaced outright, an Inherited dependency is left
structurally unchanged, and a Detailed dependency has its version field
set to `some new_version` whether or not a version was present. -/
theorem claim_C5_variant_update (deps : DepMap) (package version : String)
    (i : Nat) (hi : i < deps.length)
    (hlen : i < (update_dependencies deps package version).length)
    (hkey : (deps.get ⟨i, hi⟩).1 = package) :
    (update_dependencies deps package version).get ⟨i, hlen⟩ =
      ((deps.get ⟨i, hi⟩).1,
        match (deps.get ⟨i, hi⟩).2 with
        | .simple _ => .simple version
        | .inherited => .inherited
        | .detailed _ path => .detailed (some version) path) := by
  have hmap : (update_dependencies deps package version).get ⟨i, hlen⟩
      = if (deps.get ⟨i, hi⟩).1 = package
        then ((deps.get ⟨i, hi⟩).1, updateDependency version (deps.get ⟨i, hi⟩).2)
        else deps.get ⟨i, hi⟩ := by
    simp only [update_dependencies, List.get_eq_getElem, List.getElem_map]
  rw [hmap, if_pos hkey]
  cases hd : (deps.get ⟨i, hi⟩).2 <;> rfl

/-- Witness for C5 at a concrete Detailed dependency with no prior
version. -/
theorem claim_C5_witness :
    (update_dependencies [("child", Dependency.detailed none (some "p"))] "child" "0.3.0").get
        ⟨0, by decide⟩
      = ("child", Dependency.detailed (some "0.3.0") (some "p")) :=
  claim_C5_variant_update [("child", Dependency.detailed none (some "p"))] "child" "0.3.0" 0
    (by decide) (by decide) rfl

/-- Claim C6: loading yields the explicit absent members state both when
the root has no workspace and when the workspace's member list is
empty; the members field is populated only when at least one member is
declared and loaded. -/
theorem claim_C6_members_absent {fs : FS} {path : FilePath} {s : CargoManifest}
    (h : load_manifest fs path = .ok s) :
    (s.members = none ↔
      (s.root_manifest.workspace = none ∨
        ∃ ws, s.root_manifest.workspace = some ws ∧ ws.members = [])) ∧
    (∀ l, s.members = some l → l ≠ []) := by
  obtain ⟨-, -, hcase⟩ := load_manifest_ok h
  rcases hcase with ⟨hws, hmem⟩ | ⟨ws, res, hws, hres, hcase2⟩
  · exact ⟨⟨fun _ => Or.inl hws, fun _ => hmem⟩,
      fun l hl => by rw [hmem] at hl; cases hl⟩
  · rcases hcase2 with ⟨hlen, hmem⟩ | ⟨hnil, hmem⟩
    · constructor
      · constructor
        · intro hcon
          rw [hmem] at hcon
          cases hcon
        · rintro (hcon | ⟨ws2, hws2, hnil2⟩)
          · rw [hws] at hcon
            cases hcon
          · rw [hws] at hws2
            cases hws2
            rw [hnil2] at hres
            cases hres
            simp at hlen
      · intro l hl
        rw [hmem] at hl
        cases hl
        intro hcon
        rw [hcon] at hlen
        simp at hlen
    · subst hnil
      constructor
      · constructor
        · intro _
          by_cases hml : ws.members = []
          · exact Or.inr ⟨ws, hws, hml⟩
          · exact absurd rfl (load_children_list_ne_nil_of_cons ws.members [] [] hres hml)
        · intro _
          exact hmem
      · intro l hl
        rw [hmem] at hl
        cases hl

/-- Witness for C6 on the concrete workspace. -/
theorem claim_C6_witness : exMembers ≠ [] :=
  (claim_C6_members_absent (show load_manifest exFS exRootP = .ok exGraph by decide)).2
    exMembers rfl

/-- Claim C8 counterexample: the real-filesystem write capability does
not fail with NotFound on a missing target — it succeeds and creates
the resource, refuting overwrite-only semantics for every storage
implementation. -/
theorem claim_C8_counterexample :
    lookupFS ([] : FS) exChildP = none ∧
    realWrite ([] : FS) exChildP (.valid exChildMan)
      = .ok [(exChildP, .valid exChildMan)] ∧
    lookupFS [(exChildP, .valid exChildMan)] exChildP = some (.valid exChildMan) := by
  exact ⟨rfl, rfl, by decide⟩

/-- Claim C8 (amended): the mock storage implementation has
overwrite-only semantics — both read and write fail with NotFound on a
missing resource — while the real implementation's read fails with
NotFound but its write succeeds and creates the missing resource. -/
theorem claim_C8_amended (fs : FS) (p : FilePath) (c : Content)
    (h : lookupFS fs p = none) :
    mockRead fs p = .error (.notFound "File not found") ∧
    mockWrite fs p c = .error (.notFound "File not found") ∧
    realRead fs p = .error (.notFound "No such file or directory") ∧
    realWrite fs p c = .ok (insertFS fs p c) ∧
    lookupFS (insertFS fs p c) p = some c := by
  refine ⟨?_, mockWrite_error_of_lookup_none p c fs h, ?_, rfl, ?_⟩
  · unfold mockRead
    rw [h]
  · unfold realRead
    rw [h]
  · rw [lookupFS_insertFS, if_pos rfl]

/-- Witness for the amended C8 at a concrete missing path. -/
theorem claim_C8_witness :
    mockWrite ([] : FS) exChildP (.valid exChildMan)
      = .error (.notFound "File not found") :=
  (claim_C8_amended [] exChildP (.valid exChildMan) rfl).2.1

/-- Claim C10: when the root identifier has no parent component and the
manifest declares a (non-empty) membership list, loading panics — the
member loop unconditionally unwraps the root path's parent — while with
a containing directory loading never panics. -/
theorem claim_C10_parent_panic (fs : FS) (root : FilePath) (man : Manifest)
    (ws : Workspace) (m0 : List String) (rest : List (List String))
    (hread : load_cargo fs root = .ok man)
    (hws : man.workspace = some ws)
    (hm : ws.members = m0 :: rest)
    (hpar : root.parent = none) :
    load_manifest fs root = .panicked ∧
      ∀ (fs2 : FS) (p2 d : FilePath), p2.parent = some d →
        load_manifest fs2 p2 ≠ .panicked := by
  constructor
  · simp only [load_manifest, load_children, CargoManifest.new, hread, hws, hm,
      load_children_list, hpar]
  · intro fs2 p2 d hd
    simp only [load_manifest, load_children, CargoManifest.new]
    split
    · exact fun hcon => nomatch hcon
    · rename_i man2 hman2
      split
      · exact fun hcon => nomatch hcon
      · rename_i ws2 hws2
        split
        · rename_i hcl
          exact absurd hcl (load_children_list_no_panic hd _ _)
        · exact fun hcon => nomatch hcon
        · rename_i res hres
          split_ifs <;> exact fun hcon => nomatch hcon

/-- Witness for C10: a root stored at `/` with one declared member makes
the loader panic. -/
theorem claim_C10_witness : load_manifest c10FS c10Root = .panicked :=
  (claim_C10_parent_panic c10FS c10Root c10Man ⟨[["child"]], []⟩ ["child"] []
    rfl rfl rfl rfl).1

/-- Claim C4 counterexample: two loads that fail on members with
different identifiers surface literally identical errors — a fixed
context string and io message — so the surfaced error does not carry the
failing member's resource identifier. -/
theorem claim_C4_counterexample :
    load_manifest c4FsA exRootP = load_manifest c4FsB exRootP ∧
    load_manifest c4FsA exRootP
      = .err (.ioError "failed to read Cargo.toml from path" "File not found") ∧
    resolveMember ⟨false, []⟩ ["childA"] ≠ resolveMember ⟨false, []⟩ ["childB"] := by
  refine ⟨by decide, by decide, by decide⟩

/-- Claim C4 (amended): a member whose resource cannot be read or parsed
makes the whole load fail with that member's load error — the io-error
kind for an unreadable resource, the parse-error kind for an
unparseable one — aborting at the first failing member with no partial
graph; either error is a fixed context message and does not reference
the failing member's identifier. -/
theorem claim_C4_first_member_error (fs : FS) (root dir : FilePath) (man : Manifest)
    (ws : Workspace) (good : List (List String)) (bad : List String)
    (rest : List (List String)) (e : LoadErr)
    (hroot : load_cargo fs root = .ok man)
    (hws : man.workspace = some ws)
    (hmem : ws.members = good ++ bad :: rest)
    (hdir : root.parent = some dir)
    (hgood : ∀ m ∈ good, ∃ mm, load_cargo fs (resolveMember dir m) = .ok mm)
    (hbad : load_cargo fs (resolveMember dir bad) = .error e) :
    load_manifest fs root = .err e ∧
    (lookupFS fs (resolveMember dir bad) = none →
      e = .ioError "failed to read Cargo.toml from path" "File not found") ∧
    (lookupFS fs (resolveMember dir bad) = some .invalid →
      e = .parseError "failed to parse Cargo.toml") := by
  refine ⟨?_, ?_, ?_⟩
  · simp only [load_manifest, load_children, CargoManifest.new, hroot, hws, hmem,
      load_children_list_first_err hdir rest hbad good [] hgood]
  · intro hn
    have h2 := hbad.symm.trans (load_cargo_not_found hn)
    cases h2
    rfl
  · intro hn
    have h2 := hbad.symm.trans (load_cargo_invalid hn)
    cases h2
    rfl

/-- Witness for the amended C4 at a concrete member whose resource fails
to parse. -/
theorem claim_C4_witness :
    load_manifest c4FsP exRootP = .err (.parseError "failed to parse Cargo.toml") :=
  (claim_C4_first_member_error c4FsP exRootP ⟨false, []⟩ c4ManA ⟨[["childA"]], []⟩
    [] ["childA"] [] (.parseError "failed to parse Cargo.toml")
    rfl rfl rfl rfl (by simp) rfl).1

/-- Claim C7: every member key in the loaded graph is the root's
containing directory joined with the declared relative path and
`Cargo.toml`, every declared member resolves to a key, and the member
mapping is strictly ordered by identifier. -/
theorem claim_C7_member_resolution {fs : FS} {root_path dir : FilePath} {s : CargoManifest}
    {ws : Workspace} {mems : List (FilePath × Manifest)}
    (h : load_manifest fs root_path = .ok s)
    (hws : s.root_manifest.workspace = some ws)
    (hdir : root_path.parent = some dir)
    (hmem : s.members = some mems) :
    (∀ m ∈ ws.members, resolveMember dir m ∈ mems.map Prod.fst) ∧
    (∀ x ∈ mems.map Prod.fst, ∃ m ∈ ws.members, x = resolveMember dir m) ∧
    ((mems.map Prod.fst).Pairwise fun a b => FilePath.lt a b = true) := by
  obtain ⟨hrp, hload, hcase⟩ := load_manifest_ok h
  rcases hcase with ⟨hws2, hmem2⟩ | ⟨ws2, res, hws2, hres, hcase2⟩
  · rw [hws] at hws2
    cases hws2
  · rw [hws] at hws2
    cases hws2
    rcases hcase2 with ⟨hlen, hmem2⟩ | ⟨hnil, hmem2⟩
    · rw [hmem] at hmem2
      cases hmem2
      have hkeys := load_children_list_keys hdir ws.members [] mems hres
      refine ⟨?_, ?_, load_children_list_sorted ws.members [] mems hres (by simp)⟩
      · intro m hm
        rw [hkeys (resolveMember dir m)]
        exact Or.inr ⟨m, hm, rfl⟩
      · intro x hx
        rcases (hkeys x).mp hx with hx2 | hx2
        · simp at hx2
        · exact hx2
    · rw [hmem] at hmem2
      cases hmem2

/-- Witness for C7: the declared member `child` resolves to its key in
the loaded concrete workspace. -/
theorem claim_C7_witness :
    resolveMember ⟨false, ([] : List String)⟩ ["child"] ∈ exMembers.map Prod.fst :=
  (claim_C7_member_resolution (show load_manifest exFS exRootP = .ok exGraph by decide)
    rfl rfl rfl).1 ["child"] (by decide)

/-- Claim C9: a successful update preserves the graph structure — root
path, version-erased skeleton of the root manifest, and the member keys
and version-erased member skeletons; only version fields change. -/
theorem claim_C9_structure_preserved {fs : FS} {s : CargoManifest} {package version : String}
    {s2 : CargoManifest} {fs2 : FS} {writes : List (FilePath × Content)}
    (h : update_version fs s package version = .ok (s2, fs2, writes)) :
    s2.root_path = s.root_path ∧
    s2.root_manifest.strip = s.root_manifest.strip ∧
    s2.members.map (List.map fun pm => (pm.1, pm.2.strip))
      = s.members.map (List.map fun pm => (pm.1, pm.2.strip)) := by
  obtain ⟨hrp, hroot, -, -, -⟩ := update_version_ok h
  refine ⟨hrp, by rw [hroot, strip_update_root], ?_⟩
  rw [update_version_members_map h]
  rcases hsm : s.members with _ | mems
  · rfl
  · refine congrArg some ?_
    rw [List.map_map]
    refine List.map_congr_left fun pm hpm => ?_
    show (pm.1, (memberUpdate package version pm.2).strip) = (pm.1, pm.2.strip)
    rw [strip_memberUpdate]

/-- Witness for C9 on the concrete workspace update. -/
theorem claim_C9_witness : exGraph2.root_path = exGraph.root_path :=
  (claim_C9_structure_preserved (show update_version exFS exGraph "child" "0.3.0"
    = .ok (exGraph2, exFS2, exWrites) from rfl)).1

/-- Claim C2 counterexample: a root that owns a package descriptor whose
name does not match keeps its own dependencies mapping untouched even
though an entry's key equals the target — the update is not independent
of package-descriptor ownership. -/
theorem claim_C2_counterexample :
    update_version c2FS c2Graph "child" "0.3.0"
      = .ok (⟨exRootP, c2Man, none⟩, [(exRootP, .valid c2Man)], [(exRootP, .valid c2Man)]) ∧
    ("child", Dependency.simple "0.1.0") ∈ c2Man.dependencies ∧
    (⟨exRootP, c2Man, none⟩ : CargoManifest).root_manifest.dependencies
      = [("child", Dependency.simple "0.1.0")] ∧
    Dependency.simple "0.1.0" ≠ Dependency.simple "0.3.0" := by
  refine ⟨rfl, by decide, rfl, by decide⟩

/-- Claim C2 (amended): a resource's own dependencies mapping is updated
only when the resource does not own a package descriptor; when it owns
one — matching or not — its own dependencies mapping is left unchanged.
The root's workspace-level dependencies are always updated. -/
theorem claim_C2_deps_only_without_package {fs : FS} {s : CargoManifest}
    {package version : String} {s2 : CargoManifest} {fs2 : FS}
    {writes : List (FilePath × Content)}
    (h : update_version fs s package version = .ok (s2, fs2, writes)) :
    s2.root_manifest.dependencies
      = (if s.root_manifest.package = none
          then update_dependencies s.root_manifest.dependencies package version
          else s.root_manifest.dependencies) ∧
    s2.root_manifest.workspace
      = s.root_manifest.workspace.map (fun ws =>
          { ws with dependencies := update_dependencies ws.dependencies package version }) ∧
    s2.members = s.members.map (List.map fun pm =>
      (pm.1, memberUpdate package version pm.2)) ∧
    (∀ m : Manifest, (memberUpdate package version m).dependencies
      = if m.package = none then update_dependencies m.dependencies package version
        else m.dependencies) := by
  obtain ⟨-, hroot, -, -, -⟩ := update_version_ok h
  exact ⟨by rw [hroot, update_root_dependencies],
    by rw [hroot, update_root_workspace],
    update_version_members_map h,
    fun m => memberUpdate_dependencies m package version⟩

/-- Witness for the amended C2 on the concrete workspace update. -/
theorem claim_C2_witness :
    exGraph2.root_manifest.dependencies
      = (if exGraph.root_manifest.package = none
          then update_dependencies exGraph.root_manifest.dependencies "child" "0.3.0"
          else exGraph.root_manifest.dependencies) :=
  (claim_C2_deps_only_without_package (show update_version exFS exGraph "child" "0.3.0"
    = .ok (exGraph2, exFS2, exWrites) from rfl)).1

/-- Claim C1: on a successful update the write log is exactly the root
followed by the members without a package descriptor; a member whose
package matches the target is mutated in memory (its version is set in
the updated graph) but its storage entry is untouched, so re-reading it
yields the pre-update content. -/
theorem claim_C1_selective_persistence {fs : FS} {s : CargoManifest}
    {package version : String} {s2 : CargoManifest} {fs2 : FS}
    {writes : List (FilePath × Content)}
    (h : update_version fs s package version = .ok (s2, fs2, writes)) :
    writes.map Prod.fst = s.root_path ::
      ((s.members.getD []).filterMap fun pm =>
        if pm.2.package = none then some pm.1 else none) ∧
    s2.members = s.members.map (List.map fun pm =>
      (pm.1, memberUpdate package version pm.2)) ∧
    (∀ mems0 p m pkg, s.members = some mems0 → (p, m) ∈ mems0 →
      m.package = some pkg → pkg.name = package →
      ((p, { m with package := some { pkg with version := version } }) ∈ s2.members.getD []) ∧
      (p ≠ s.root_path →
        (∀ q mq, (q, mq) ∈ mems0 → mq.package = none → p ≠ q) →
        lookupFS fs2 p = lookupFS fs p)) := by
  obtain ⟨hrp, hroot, fs1, hw, hcase⟩ := update_version_ok h
  have hlook1 := lookupFS_mockWrite _ _ fs fs1 hw
  have hmm := update_version_members_map h
  rcases hcase with ⟨hm1, hm2, hfs, hwr⟩ | ⟨mems, mems2, ws, hm1, hU, hm2, hwr⟩
  · refine ⟨?_, hmm, ?_⟩
    · subst hwr
      rw [hm1]
      rfl
    · intro mems0 p m pkg hmems hpm hpkg hname
      rw [hm1] at hmems
      cases hmems
  · obtain ⟨hmems2, hws2, hframe⟩ := update_members_ok hU
    refine ⟨?_, hmm, ?_⟩
    · subst hwr
      rw [hm1]
      simp only [List.map_cons, Option.getD_some]
      rw [hws2, memberWrites_keys]
    · intro mems0 p m pkg hmems hpm hpkg hname
      rw [hm1] at hmems
      cases hmems
      constructor
      · rw [hm2, hmems2]
        simp only [Option.getD_some]
        exact List.mem_map.mpr ⟨(p, m), hpm,
          by simp [memberUpdate_matched version hpkg hname]⟩
      · intro hpne hqne
        have hnotin : p ∉ (memberWrites package version mems).map Prod.fst := by
          rw [memberWrites_keys]
          intro hcon
          rcases List.mem_filterMap.mp hcon with ⟨pm, hpmin, hsome⟩
          by_cases hn : pm.2.package = none
          · rw [if_pos hn] at hsome
            cases hsome
            exact hqne pm.1 pm.2 (by rw [Prod.mk.eta]; exact hpmin) hn rfl
          · rw [if_neg hn] at hsome
            cases hsome
        rw [hframe p (by rw [hws2]; exact hnotin), hlook1 p, if_neg hpne]

/-- Witness for C1 on the concrete workspace update: the write log is
the root followed by the single aggregator member. -/
theorem claim_C1_witness :
    exWrites.map Prod.fst = exGraph.root_path ::
      ((exGraph.members.getD []).filterMap fun pm =>
        if pm.2.package = none then some pm.1 else none) :=
  (claim_C1_selective_persistence (show update_version exFS exGraph "child" "0.3.0"
    = .ok (exGraph2, exFS2, exWrites) from rfl)).1

/-- Claim C3 counterexample: with a target name matching nothing, the
engine still writes the aggregator member's resource in addition to the
root, so the update is not write-free beyond the root. -/
theorem claim_C3_counterexample :
    update_version exFS exGraph "unrelated" "9.9.9"
      = .ok (exGraph, exFS, [(exRootP, .valid exRootMan), (exAggP, .valid exAggMan)]) ∧
    exAggP ≠ exRootP := by
  refine ⟨rfl, by decide⟩

/-- Claim C3 (amended): with a target matching no package descriptor and
no dependency key, the update mutates nothing in the graph; the writes
are exactly the root plus every member without a package descriptor,
each re-written with its unchanged serialized content. -/
theorem claim_C3_unrelated_target {fs : FS} {s : CargoManifest}
    {package version : String} {s2 : CargoManifest} {fs2 : FS}
    {writes : List (FilePath × Content)}
    (h : update_version fs s package version = .ok (s2, fs2, writes))
    (hpkg : ∀ pkg, s.root_manifest.package = some pkg → pkg.name ≠ package)
    (hdep : package ∉ s.root_manifest.dependencies.map Prod.fst)
    (hwsdep : ∀ ws, s.root_manifest.workspace = some ws →
      package ∉ ws.dependencies.map Prod.fst)
    (hmemh : ∀ mems, s.members = some mems → ∀ pm ∈ mems,
      (∀ pkg, pm.2.package = some pkg → pkg.name ≠ package) ∧
      package ∉ pm.2.dependencies.map Prod.fst) :
    s2 = s ∧
    writes = (s.root_path, serialize s.root_manifest) ::
      ((s.members.getD []).filterMap fun pm =>
        if pm.2.package = none then some (pm.1, serialize pm.2) else none) := by
  obtain ⟨hrp, hroot, fs1, hw, hcase⟩ := update_version_ok h
  have hrid : update_root s.root_manifest package version = s.root_manifest :=
    update_root_id version hpkg hdep hwsdep
  have hmembers : s2.members = s.members := by
    rw [update_version_members_map h]
    rcases hsm : s.members with _ | mems
    · rfl
    · refine congrArg some ?_
      have hpt : ∀ pm ∈ mems,
          (fun pm => (pm.1, memberUpdate package version pm.2)) pm = id pm := by
        intro pm hpm
        obtain ⟨hp1, hp2⟩ := hmemh mems hsm pm hpm
        show (pm.1, memberUpdate package version pm.2) = pm
        rw [memberUpdate_id version hp1 hp2, Prod.mk.eta]
      rw [List.map_congr_left hpt, List.map_id]
  constructor
  · calc s2 = ⟨s2.root_path, s2.root_manifest, s2.members⟩ := rfl
      _ = ⟨s.root_path, s.root_manifest, s.members⟩ := by
          rw [hrp, hroot, hrid, hmembers]
      _ = s := rfl
  · rcases hcase with ⟨hm1, hm2, hfs, hwr⟩ | ⟨mems, mems2, ws, hm1, hU, hm2, hwr⟩
    · subst hwr
      rw [hm1, hrid]
      rfl
    · obtain ⟨-, hws2, -⟩ := update_members_ok hU
      subst hwr
      rw [hm1, hrid, hws2]
      simp only [Option.getD_some]
      refine congrArg (List.cons _) ?_
      unfold memberWrites
      refine List.filterMap_congr fun pm hpm => ?_
      obtain ⟨hp1, hp2⟩ := hmemh mems hm1 pm hpm
      by_cases hn : pm.2.package = none
      · rw [if_pos hn, if_pos hn, memberUpdate_id version hp1 hp2]
      · rw [if_neg hn, if_neg hn]

/-- Witness for the amended C3 on the concrete workspace with an
unrelated target. -/
theorem claim_C3_witness :
    [(exRootP, Content.valid exRootMan), (exAggP, Content.valid exAggMan)]
      = (exGraph.root_path, serialize exGraph.root_manifest) ::
        ((exGraph.members.getD []).filterMap fun pm =>
          if pm.2.package = none then some (pm.1, serialize pm.2) else none) :=
  (claim_C3_unrelated_target
    (show update_version exFS exGraph "unrelated" "9.9.9"
      = .ok (exGraph, exFS, [(exRootP, .valid exRootMan), (exAggP, .valid exAggMan)])
      from rfl)
    (fun pkg hp => by cases hp; decide)
    (by decide)
    (fun ws hws => by cases hws; decide)
    (by
      intro mems hm pm hpm
      simp only [exGraph, Option.some.injEq] at hm
      subst hm
      simp only [exMembers, List.mem_cons, List.not_mem_nil, or_false] at hpm
      rcases hpm with rfl | rfl | rfl
      · exact ⟨fun pkg hp => (nomatch hp), by decide⟩
      · exact ⟨fun pkg hp => by cases hp; decide, by decide⟩
      · exact ⟨fun pkg hp => by cases hp; decide, by decide⟩)).2

end CargoSet
